import Mathlib

/-!
Verification development for the time-optimal trajectory generation core
(Kunz–Stilman) of `moveit_core/trajectory_processing`.

The repository's `src/` holds only the public header
`time_optimal_trajectory_generation.hpp` (declarations of `PathSegment`,
`Path`, `Trajectory` and their queries); every algorithm body lives in the
accompanying translation unit, which is not part of the staged sources.
Following the spec (`spec.md` §3–§7), the missing bodies are modelled here as
shallow Lean definitions over ℝ; each such definition carries a doc comment
beginning `Modelled from the spec:`.
-/

namespace TOTG

/-- Configuration vector q ∈ ℝⁿ, one coordinate per joint (spec §3,
"Configuration vector": a fixed-dimension real vector equipped with the
Euclidean norm). -/
abbrev Config (n : ℕ) := Fin n → ℝ

/-- Euclidean dot product on configuration space. -/
def dotp {n : ℕ} (x y : Config n) : ℝ := ∑ i, x i * y i

/-- Euclidean norm on configuration space (spec §3: "equipped with Euclidean
norm"). -/
noncomputable def nrm {n : ℕ} (x : Config n) : ℝ := Real.sqrt (dotp x x)

theorem dotp_comm {n : ℕ} (x y : Config n) : dotp x y = dotp y x := by
  simp [dotp, mul_comm]

theorem dotp_self_eq_sum_sq {n : ℕ} (x : Config n) : dotp x x = ∑ i, x i ^ 2 := by
  simp [dotp, sq]

theorem dotp_self_nonneg {n : ℕ} (x : Config n) : 0 ≤ dotp x x := by
  rw [dotp_self_eq_sum_sq]
  exact Finset.sum_nonneg fun i _ => sq_nonneg _

theorem nrm_nonneg {n : ℕ} (x : Config n) : 0 ≤ nrm x := Real.sqrt_nonneg _

theorem nrm_sq {n : ℕ} (x : Config n) : nrm x ^ 2 = dotp x x :=
  Real.sq_sqrt (dotp_self_nonneg x)

theorem nrm_eq_zero_iff {n : ℕ} (x : Config n) : nrm x = 0 ↔ dotp x x = 0 := by
  constructor
  · intro h
    have := nrm_sq x
    rw [h] at this
    simpa using this.symm
  · intro h
    simp [nrm, h]

/-- Cauchy–Schwarz for the dot product. -/
theorem dotp_le_nrm_mul_nrm {n : ℕ} (x y : Config n) : dotp x y ≤ nrm x * nrm y := by
  have h := Real.sum_mul_le_sqrt_mul_sqrt (Finset.univ : Finset (Fin n))
    (fun i => x i) (fun i => y i)
  rw [nrm, nrm, dotp_self_eq_sum_sq, dotp_self_eq_sum_sq]
  simpa [dotp] using h

theorem dotp_add_left {n : ℕ} (x y z : Config n) :
    dotp (x + y) z = dotp x z + dotp y z := by
  simp [dotp, add_mul, Finset.sum_add_distrib]

theorem dotp_add_right {n : ℕ} (x y z : Config n) :
    dotp x (y + z) = dotp x y + dotp x z := by
  simp [dotp, mul_add, Finset.sum_add_distrib]

theorem dotp_smul_left {n : ℕ} (c : ℝ) (x y : Config n) :
    dotp (c • x) y = c * dotp x y := by
  simp [dotp, Finset.mul_sum, mul_assoc]

theorem dotp_smul_right {n : ℕ} (c : ℝ) (x y : Config n) :
    dotp x (c • y) = c * dotp x y := by
  rw [dotp_comm, dotp_smul_left, dotp_comm]

theorem dotp_neg_left {n : ℕ} (x y : Config n) : dotp (-x) y = -dotp x y := by
  simp [dotp, Finset.sum_neg_distrib]

theorem dotp_sub_left {n : ℕ} (x y z : Config n) :
    dotp (x - y) z = dotp x z - dotp y z := by
  rw [sub_eq_add_neg, dotp_add_left, dotp_neg_left, sub_eq_add_neg]

theorem dotp_sub_right {n : ℕ} (x y z : Config n) :
    dotp x (y - z) = dotp x y - dotp x z := by
  rw [dotp_comm, dotp_sub_left, dotp_comm z x, dotp_comm y x]

/-- Expansion of the squared norm of a sum. -/
theorem dotp_add_add {n : ℕ} (x y : Config n) :
    dotp (x + y) (x + y) = dotp x x + 2 * dotp x y + dotp y y := by
  rw [dotp_add_left, dotp_add_right, dotp_add_right, dotp_comm y x]
  ring

/-- Triangle inequality for the Euclidean norm. -/
theorem nrm_add_le {n : ℕ} (x y : Config n) : nrm (x + y) ≤ nrm x + nrm y := by
  have hsum : dotp (x + y) (x + y) ≤ (nrm x + nrm y) ^ 2 := by
    rw [dotp_add_add]
    have hcs := dotp_le_nrm_mul_nrm x y
    have hx := nrm_sq x
    have hy := nrm_sq y
    nlinarith [nrm_nonneg x, nrm_nonneg y]
  calc nrm (x + y) = Real.sqrt (dotp (x + y) (x + y)) := rfl
    _ ≤ Real.sqrt ((nrm x + nrm y) ^ 2) := Real.sqrt_le_sqrt hsum
    _ = nrm x + nrm y := by
        rw [Real.sqrt_sq (add_nonneg (nrm_nonneg x) (nrm_nonneg y))]

theorem nrm_smul {n : ℕ} (c : ℝ) (x : Config n) : nrm (c • x) = |c| * nrm x := by
  have : dotp (c • x) (c • x) = c ^ 2 * dotp x x := by
    rw [dotp_smul_left, dotp_smul_right]; ring
  rw [nrm, this, Real.sqrt_mul (sq_nonneg c), Real.sqrt_sq_eq_abs, nrm]

/-- Three-point triangle inequality for differences. -/
theorem nrm_sub_le_of_mid {n : ℕ} (x y z : Config n) :
    nrm (x - z) ≤ nrm (x - y) + nrm (y - z) := by
  have h : x - z = (x - y) + (y - z) := by abel
  rw [h]
  exact nrm_add_le _ _

open scoped Classical

/-- Numerical tolerance ε (spec §4.6: `eps` ≈ 1e-6, collinearity and tangent
matching). -/
def eps : ℝ := 1e-6

/-- Unit vector in the direction of `x` (zero vector when `x` is zero, since
division by zero yields zero). -/
noncomputable def unitv {n : ℕ} (x : Config n) : Config n := (1 / nrm x) • x

/-- A path segment (spec §3 "PathSegment"): an arc-length-parameterized
primitive, either a `LinearSegment` from `a` to `b` or a `CircularSegment`
given by center, orthonormal frame `(u, v)`, radius and swept angle. -/
inductive PathSegment (n : ℕ) where
  | linear (a b : Config n)
  | circular (center u v : Config n) (radius angle : ℝ)

/-- Segment arc length (spec §3: linear L = ‖b − a‖, circular L = rα). -/
noncomputable def PathSegment.length {n : ℕ} : PathSegment n → ℝ
  | .linear a b => nrm (b - a)
  | .circular _ _ _ r α => r * α

/-- Segment configuration at local arc length `s` (spec §3: linear
config(s) = a + (s/L)(b − a); circular: the point of the arc at angle s/r in
the frame (u, v) about the center). -/
noncomputable def PathSegment.config {n : ℕ} : PathSegment n → ℝ → Config n
  | .linear a b, s => a + (s / nrm (b - a)) • (b - a)
  | .circular c u v r _, s =>
      c + r • (Real.cos (s / r) • u + Real.sin (s / r) • v)

/-- Segment unit tangent at local arc length `s` (spec §3). -/
noncomputable def PathSegment.tangent {n : ℕ} : PathSegment n → ℝ → Config n
  | .linear a b, _ => (1 / nrm (b - a)) • (b - a)
  | .circular _ u v r _, s => (-Real.sin (s / r)) • u + Real.cos (s / r) • v

/-- Segment curvature (second derivative w.r.t. arc length) at local `s`
(spec §3: zero for straight segments, 1/r times an inward-normal vector for
circular arcs). -/
noncomputable def PathSegment.curvature {n : ℕ} : PathSegment n → ℝ → Config n
  | .linear _ _, _ => 0
  | .circular _ u v r _, s =>
      (-(1 / r)) • (Real.cos (s / r) • u + Real.sin (s / r) • v)

/-- Intrinsic switching points in local arc length (spec §3: none for linear
segments; s = 0 and s = L for circular ones, the curvature discontinuities at
the tangency points). -/
noncomputable def PathSegment.switchingPoints {n : ℕ} : PathSegment n → List ℝ
  | .linear _ _ => []
  | .circular _ _ _ r α => [0, r * α]

/-- Whether the segment is a circular blend. -/
def PathSegment.isCirc {n : ℕ} : PathSegment n → Bool
  | .linear _ _ => false
  | .circular _ _ _ _ _ => true

/-- A geometric path (spec §3 "Path"): the ordered owned segments, each paired
with its `position` attribute (its start offset along the aggregate path, set
at assembly), the aggregate length, and the (arc length, discontinuity)
switching points. -/
structure Path (n : ℕ) where
  segments : List (PathSegment n × ℝ)
  length : ℝ
  switchingPoints : List (ℝ × Bool)

/-- The segments without their position attribute. -/
def Path.rawSegments {n : ℕ} (p : Path n) : List (PathSegment n) :=
  p.segments.map Prod.fst

/-- Modelled from the spec: the degeneracy test of `Path::create` step 1
(§4.1: "If either has zero norm or the two are collinear (|cos θ| ≥ 1 − ε),
emit a single linear segment and skip blending"; the body of
`Path::create` is not among the staged sources). -/
noncomputable def collinearOrDegenerate {n : ℕ} (y z : Config n) : Prop :=
  nrm y = 0 ∨ nrm z = 0 ∨ 1 - eps ≤ |dotp (unitv y) (unitv z)|

/-- Modelled from the spec: the corner angle α between the incident edge
directions (§4.1 step 2). -/
noncomputable def cornerAngle {n : ℕ} (y z : Config n) : ℝ :=
  Real.arccos (dotp (unitv y) (unitv z))

/-- Modelled from the spec: the blend radius candidate computed from the
deviation δ (§4.1 step 2: r = δ·sin(α/2)/(1 − sin(α/2))). -/
noncomputable def blendRadiusFromDeviation {n : ℕ} (y z : Config n) (δ : ℝ) : ℝ :=
  δ * Real.sin (cornerAngle y z / 2) / (1 - Real.sin (cornerAngle y z / 2))

/-- Modelled from the spec: the tangency distance, constrained so blends never
overlap (§4.1 step 3: t_d = r/tan(α/2), capped by half the length of each
incident linear piece). -/
noncomputable def tangencyDistance {n : ℕ} (y z : Config n) (δ : ℝ) : ℝ :=
  min (blendRadiusFromDeviation y z δ / Real.tan (cornerAngle y z / 2))
    (min (nrm y / 2) (nrm z / 2))

/-- Modelled from the spec: the effective blend radius after the tangency
distance was capped ("if violated, reduce r ... correspondingly", §4.1 step 3);
the tangency relation r = t_d·cot(α/2) keeps the arc tangent to both incident
edges at distance t_d from the corner. -/
noncomputable def blendRadius {n : ℕ} (y z : Config n) (δ : ℝ) : ℝ :=
  tangencyDistance y z δ / Real.tan (cornerAngle y z / 2)

/-- Modelled from the spec: the point where the incoming linear piece ends and
the blend starts (§4.1 step 4: wᵢ − t_d·ŷ). -/
noncomputable def blendStart {n : ℕ} (start wi wnext : Config n) (δ : ℝ) : Config n :=
  wi - tangencyDistance (wi - start) (wnext - wi) δ • unitv (wi - start)

/-- Modelled from the spec: the point where the blend ends and the next linear
piece starts (§4.1 step 4: wᵢ + t_d·ẑ). -/
noncomputable def blendEnd {n : ℕ} (start wi wnext : Config n) (δ : ℝ) : Config n :=
  wi + tangencyDistance (wi - start) (wnext - wi) δ • unitv (wnext - wi)

/-- Modelled from the spec: the center of the blend arc, on the internal
bisector of the corner at the distance t_d/sin(α/2) that places the circle
tangent to both edges (spec §3 gives the attributes of a CircularSegment;
§4.1 fixes the tangency points, which determine the circle). -/
noncomputable def blendCenter {n : ℕ} (start wi wnext : Config n) (δ : ℝ) : Config n :=
  wi + (tangencyDistance (wi - start) (wnext - wi) δ /
      Real.sin (cornerAngle (wi - start) (wnext - wi) / 2)) •
    unitv (unitv (wnext - wi) - unitv (wi - start))

/-- Modelled from the spec: the circular blend segment at interior waypoint
`wi` (spec §3 "CircularSegment", §4.1 step 4): frame vector u points from the
center to the arc start, v is the incoming edge direction, the swept angle is
the corner angle α. -/
noncomputable def blendArc {n : ℕ} (start wi wnext : Config n) (δ : ℝ) : PathSegment n :=
  .circular (blendCenter start wi wnext δ)
    (unitv (blendStart start wi wnext δ - blendCenter start wi wnext δ))
    (unitv (wi - start))
    (blendRadius (wi - start) (wnext - wi) δ)
    (cornerAngle (wi - start) (wnext - wi))

/-- Modelled from the spec: the segment-emission walk of `Path::create`
(§4.1: for each interior waypoint either a single linear segment when the
corner is degenerate, or a linear piece up to the tangency point followed by
the circular blend; after all corners, the final linear segment to the last
waypoint). -/
noncomputable def buildSegments {n : ℕ} (δ : ℝ) :
    Config n → List (Config n) → List (PathSegment n)
  | _, [] => []
  | start, [w] => [.linear start w]
  | start, w :: next :: rest =>
      if collinearOrDegenerate (w - start) (next - w) then
        .linear start w :: buildSegments δ w (next :: rest)
      else
        .linear start (blendStart start w next δ) ::
          blendArc start w next δ ::
            buildSegments δ (blendEnd start w next δ) (next :: rest)

/-- Sum of the lengths of a list of segments. -/
noncomputable def totalLength {n : ℕ} (segs : List (PathSegment n)) : ℝ :=
  (segs.map PathSegment.length).sum

/-- Modelled from the spec: "Set each segment's `position` to its cumulative
start arc length" (§4.1). -/
noncomputable def assignPositions {n : ℕ} :
    List (PathSegment n) → ℝ → List (PathSegment n × ℝ)
  | [], _ => []
  | seg :: rest, pos => (seg, pos) :: assignPositions rest (pos + seg.length)

/-- True iff the boundary between the two segments is a curvature
discontinuity (spec §4.1: a linear→circular or circular→linear transition). -/
def transitionFlag {n : ℕ} (s1 s2 : PathSegment n) : Bool :=
  s1.isCirc != s2.isCirc

/-- The switching point at the boundary after `seg` (none when `seg` is the
last segment). -/
noncomputable def boundarySP {n : ℕ} (seg : PathSegment n) (pos : ℝ) :
    List (PathSegment n) → List (ℝ × Bool)
  | [] => []
  | seg2 :: _ => [(pos + seg.length, transitionFlag seg seg2)]

/-- Modelled from the spec: "Collect switching points: one per segment
boundary (discontinuity = true iff it is a linear→circular or circular→linear
transition) plus any intrinsic points from segments" (§4.1). -/
noncomputable def collectSwitchingPoints {n : ℕ} :
    List (PathSegment n) → ℝ → List (ℝ × Bool)
  | [], _ => []
  | seg :: rest, pos =>
      (seg.switchingPoints.map fun s => (pos + s, true)) ++
        boundarySP seg pos rest ++
        collectSwitchingPoints rest (pos + seg.length)

/-- Modelled from the spec: `Path::create` (declared at
`time_optimal_trajectory_generation.hpp:92`; body not among the staged
sources). Returns an empty result if the waypoint list is empty or the
maximum deviation is not positive (§4.1 "Failure", §7 InvalidInput, §8
scenario 6); degenerate interior corners are absorbed by emitting plain
linear segments (§7 DegenerateGeometry). -/
noncomputable def Path.create {n : ℕ} (waypoints : List (Config n))
    (maxDeviation : ℝ) : Option (Path n) :=
  match waypoints with
  | [] => none
  | w0 :: rest =>
      if maxDeviation ≤ 0 then none
      else
        some
          { segments := assignPositions (buildSegments maxDeviation w0 rest) 0
            length := totalLength (buildSegments maxDeviation w0 rest)
            switchingPoints := collectSwitchingPoints (buildSegments maxDeviation w0 rest) 0 }

/-- Modelled from the spec: the `getPathSegment` walk (§4.2: advance through
segments while s exceeds the current segment length, subtracting lengths),
fused with the per-segment query it dispatches to. -/
noncomputable def walkQuery {n : ℕ} (f : PathSegment n → ℝ → Config n) :
    List (PathSegment n) → ℝ → Config n
  | [], _ => 0
  | [seg], s => f seg s
  | seg :: seg2 :: rest, s =>
      if s < seg.length then f seg s else walkQuery f (seg2 :: rest) (s - seg.length)

/-- Clamp an arc length into [0, L] (spec §4.2: "Out-of-range s is clamped to
[0, L]"). -/
noncomputable def clampArc (L s : ℝ) : ℝ := max 0 (min s L)

/-- Modelled from the spec: `Path::getConfig` (§4.2). -/
noncomputable def Path.getConfig {n : ℕ} (p : Path n) (s : ℝ) : Config n :=
  walkQuery PathSegment.config p.rawSegments (clampArc p.length s)

/-- Modelled from the spec: `Path::getTangent` (§4.2). -/
noncomputable def Path.getTangent {n : ℕ} (p : Path n) (s : ℝ) : Config n :=
  walkQuery PathSegment.tangent p.rawSegments (clampArc p.length s)

/-- Modelled from the spec: `Path::getCurvature` (§4.2). -/
noncomputable def Path.getCurvature {n : ℕ} (p : Path n) (s : ℝ) : Config n :=
  walkQuery PathSegment.curvature p.rawSegments (clampArc p.length s)

/-- Modelled from the spec: `Path::getLength`. -/
noncomputable def Path.getLength {n : ℕ} (p : Path n) : ℝ := p.length

/-- First switching point with arc length strictly greater than `s`; the
total length L (with no discontinuity) when there is none. -/
noncomputable def findNextSP (L : ℝ) : List (ℝ × Bool) → ℝ → ℝ × Bool
  | [], _ => (L, false)
  | q :: rest, s => if s < q.1 then q else findNextSP L rest s

/-- Modelled from the spec: `Path::getNextSwitchingPoint` (§4.2: "returns the
smallest switching-point arc length strictly greater than s along with its
discontinuity flag; if none exists, returns L"). -/
noncomputable def Path.getNextSwitchingPoint {n : ℕ} (p : Path n) (s : ℝ) : ℝ × Bool :=
  findNextSP p.length p.switchingPoints s

theorem totalLength_nil {n : ℕ} : totalLength ([] : List (PathSegment n)) = 0 := rfl

theorem totalLength_cons {n : ℕ} (seg : PathSegment n) (rest : List (PathSegment n)) :
    totalLength (seg :: rest) = seg.length + totalLength rest := by
  simp [totalLength]

theorem assignPositions_map_fst {n : ℕ} (segs : List (PathSegment n)) (pos : ℝ) :
    (assignPositions segs pos).map Prod.fst = segs := by
  induction segs generalizing pos with
  | nil => simp [assignPositions]
  | cons seg rest ih => simp [assignPositions, ih]

theorem assignPositions_length {n : ℕ} (segs : List (PathSegment n)) (pos : ℝ) :
    (assignPositions segs pos).length = segs.length := by
  induction segs generalizing pos with
  | nil => simp [assignPositions]
  | cons seg rest ih => simp [assignPositions, ih]

theorem assignPositions_get {n : ℕ} (segs : List (PathSegment n)) (pos : ℝ) (i : ℕ)
    (h : i < (assignPositions segs pos).length) :
    ((assignPositions segs pos).get ⟨i, h⟩).2 = pos + totalLength (segs.take i) := by
  induction segs generalizing pos i with
  | nil => simp [assignPositions] at h
  | cons seg rest ih =>
      cases i with
      | zero => simp [assignPositions, totalLength]
      | succ j =>
          have h2 : j < (assignPositions rest (pos + seg.length)).length := by
            have := h
            simp [assignPositions] at this
            simpa [assignPositions_length] using this
          have := ih (pos + seg.length) j h2
          simp only [assignPositions, List.get_cons_succ, List.take_succ_cons,
            totalLength_cons] at this ⊢
          rw [this]
          ring

/-- C3: `Path::create` returns an empty result exactly on an empty waypoint
list or a non-positive maximum deviation; on a non-empty list with positive
deviation and no coincident consecutive waypoints it returns a Path. (In
this model of the spec, every coincident consecutive pair is collapsed sanely
— a degenerate corner just emits a plain linear segment, §4.1 step 1 and §7
DegenerateGeometry — so no further failure case exists.) -/
theorem path_create_failure_cases {n : ℕ} (waypoints : List (Config n)) (δ : ℝ) :
    ((waypoints = [] ∨ δ ≤ 0) → Path.create waypoints δ = none) ∧
    (waypoints ≠ [] → 0 < δ → List.Chain' (fun a b => a ≠ b) waypoints →
      ∃ p, Path.create waypoints δ = some p) := by
  constructor
  · rintro (rfl | hδ)
    · rfl
    · cases waypoints with
      | nil => rfl
      | cons w0 rest => simp [Path.create, hδ]
  · intro hne hδ _
    cases waypoints with
    | nil => exact absurd rfl hne
    | cons w0 rest =>
        exact ⟨{ segments := assignPositions (buildSegments δ w0 rest) 0
                 length := totalLength (buildSegments δ w0 rest)
                 switchingPoints := collectSwitchingPoints (buildSegments δ w0 rest) 0 },
          by rw [Path.create, if_neg (not_le.mpr hδ)]⟩

/-- C6: for every Path successfully returned by `Path::create`, `getLength`
equals the sum of the lengths of its segments (within 1e-9 — in the model the
two are exactly equal), and each segment's `position` attribute equals the
cumulative arc length of the segments preceding it. -/
theorem path_length_and_positions {n : ℕ} (waypoints : List (Config n)) (δ : ℝ)
    (p : Path n) (h : Path.create waypoints δ = some p) :
    |p.getLength - totalLength p.rawSegments| ≤ 1e-9 ∧
    ∀ i (hi : i < p.segments.length),
      (p.segments.get ⟨i, hi⟩).2 = totalLength (p.rawSegments.take i) := by
  cases waypoints with
  | nil => simp [Path.create] at h
  | cons w0 rest =>
      rw [Path.create] at h
      by_cases hδ : δ ≤ 0
      · rw [if_pos hδ] at h
        exact absurd h (by simp)
      · rw [if_neg hδ] at h
        have hp := (Option.some.injEq _ _).mp h
        subst hp
        constructor
        · simp only [Path.getLength, Path.rawSegments, assignPositions_map_fst]
          norm_num
        · intro i hi
          have := assignPositions_get (buildSegments δ w0 rest) 0 i hi
          simp only [Path.rawSegments, assignPositions_map_fst]
          simpa using this

/-- Concrete one-dimensional configuration, for witnesses. -/
noncomputable def cfg1 (x : ℝ) : Config 1 := fun _ => x

/-- The path built from the two concrete waypoints 0 and 1 in ℝ¹. -/
noncomputable def linePath : Path 1 :=
  { segments := [(.linear (cfg1 0) (cfg1 1), 0)]
    length := totalLength [PathSegment.linear (cfg1 0) (cfg1 1)]
    switchingPoints := [] }

theorem linePath_create : Path.create [cfg1 0, cfg1 1] 1 = some linePath := by
  rw [Path.create]
  rw [if_neg (by norm_num : ¬ (1 : ℝ) ≤ 0)]
  rfl

theorem path_length_and_positions_witness :
    |linePath.getLength - totalLength linePath.rawSegments| ≤ 1e-9 ∧
    ∀ i (hi : i < linePath.segments.length),
      (linePath.segments.get ⟨i, hi⟩).2 = totalLength (linePath.rawSegments.take i) :=
  path_length_and_positions [cfg1 0, cfg1 1] 1 linePath linePath_create

theorem cornerAngle_nonneg {n : ℕ} (y z : Config n) : 0 ≤ cornerAngle y z :=
  Real.arccos_nonneg _

theorem cornerAngle_le_pi {n : ℕ} (y z : Config n) : cornerAngle y z ≤ Real.pi :=
  Real.arccos_le_pi _

theorem sin_half_cornerAngle_nonneg {n : ℕ} (y z : Config n) :
    0 ≤ Real.sin (cornerAngle y z / 2) := by
  have h1 := cornerAngle_nonneg y z
  have h2 := cornerAngle_le_pi y z
  have hπ := Real.pi_pos
  exact Real.sin_nonneg_of_nonneg_of_le_pi (by linarith) (by linarith)

theorem cos_half_cornerAngle_nonneg {n : ℕ} (y z : Config n) :
    0 ≤ Real.cos (cornerAngle y z / 2) := by
  have h1 := cornerAngle_nonneg y z
  have h2 := cornerAngle_le_pi y z
  have hπ := Real.pi_pos
  exact Real.cos_nonneg_of_mem_Icc ⟨by linarith, by linarith⟩

theorem tan_half_cornerAngle_nonneg {n : ℕ} (y z : Config n) :
    0 ≤ Real.tan (cornerAngle y z / 2) := by
  rw [Real.tan_eq_sin_div_cos]
  exact div_nonneg (sin_half_cornerAngle_nonneg y z) (cos_half_cornerAngle_nonneg y z)

theorem blendRadiusFromDeviation_nonneg {n : ℕ} (y z : Config n) {δ : ℝ} (hδ : 0 ≤ δ) :
    0 ≤ blendRadiusFromDeviation y z δ :=
  div_nonneg (mul_nonneg hδ (sin_half_cornerAngle_nonneg y z))
    (by linarith [Real.sin_le_one (cornerAngle y z / 2)])

theorem tangencyDistance_nonneg {n : ℕ} (y z : Config n) {δ : ℝ} (hδ : 0 ≤ δ) :
    0 ≤ tangencyDistance y z δ :=
  le_min (div_nonneg (blendRadiusFromDeviation_nonneg y z hδ)
      (tan_half_cornerAngle_nonneg y z))
    (le_min (by linarith [nrm_nonneg y]) (by linarith [nrm_nonneg z]))

theorem blendRadius_nonneg {n : ℕ} (y z : Config n) {δ : ℝ} (hδ : 0 ≤ δ) :
    0 ≤ blendRadius y z δ :=
  div_nonneg (tangencyDistance_nonneg y z hδ) (tan_half_cornerAngle_nonneg y z)

/-- Every segment the construction emits has nonnegative arc length. -/
theorem buildSegments_length_nonneg {n : ℕ} {δ : ℝ} (hδ : 0 ≤ δ) :
    ∀ (ws : List (Config n)) (start : Config n) seg,
      seg ∈ buildSegments δ start ws → 0 ≤ seg.length := by
  intro ws
  induction ws with
  | nil => intro start seg h; simp [buildSegments] at h
  | cons w rest ih =>
      intro start seg h
      cases rest with
      | nil =>
          simp only [buildSegments, List.mem_singleton] at h
          subst h
          exact nrm_nonneg _
      | cons next rest2 =>
          rw [buildSegments] at h
          by_cases hc : collinearOrDegenerate (w - start) (next - w)
          · rw [if_pos hc] at h
            rcases List.mem_cons.mp h with h1 | h1
            · subst h1; exact nrm_nonneg _
            · exact ih w seg h1
          · rw [if_neg hc] at h
            rcases List.mem_cons.mp h with h1 | h1
            · subst h1; exact nrm_nonneg _
            · rcases List.mem_cons.mp h1 with h2 | h2
              · subst h2
                simp only [blendArc, PathSegment.length]
                exact mul_nonneg (blendRadius_nonneg _ _ hδ) (cornerAngle_nonneg _ _)
              · exact ih (blendEnd start w next δ) seg h2

/-- Intrinsic switching points of a segment lie within its arc-length range. -/
theorem segment_switchingPoints_bounds {n : ℕ} (seg : PathSegment n)
    (hl : 0 ≤ seg.length) : ∀ s ∈ seg.switchingPoints, 0 ≤ s ∧ s ≤ seg.length := by
  cases seg with
  | linear a b => simp [PathSegment.switchingPoints]
  | circular c u v r α =>
      intro s hs
      simp only [PathSegment.switchingPoints, List.mem_cons,
        List.mem_singleton, List.not_mem_nil, or_false] at hs
      simp only [PathSegment.length] at hl ⊢
      rcases hs with rfl | rfl
      · exact ⟨le_refl 0, hl⟩
      · exact ⟨hl, le_refl _⟩

theorem boundarySP_mem {n : ℕ} (seg : PathSegment n) (pos : ℝ)
    (rest : List (PathSegment n)) :
    ∀ q ∈ boundarySP seg pos rest, q.1 = pos + seg.length := by
  cases rest with
  | nil => simp [boundarySP]
  | cons seg2 rest2 =>
      intro q hq
      simp only [boundarySP, List.mem_singleton] at hq
      subst hq
      rfl

/-- Every collected switching point lies at or after the start offset. -/
theorem collectSwitchingPoints_lb {n : ℕ} :
    ∀ (segs : List (PathSegment n)) (pos : ℝ), (∀ seg ∈ segs, 0 ≤ seg.length) →
      ∀ q ∈ collectSwitchingPoints segs pos, pos ≤ q.1 := by
  intro segs
  induction segs with
  | nil => intro pos _ q hq; simp [collectSwitchingPoints] at hq
  | cons seg rest ih =>
      intro pos hlen q hq
      have hl0 : 0 ≤ seg.length := hlen seg (by simp)
      rw [collectSwitchingPoints] at hq
      rcases List.mem_append.mp hq with h1 | h1
      · rcases List.mem_append.mp h1 with h2 | h2
        · rcases List.mem_map.mp h2 with ⟨s, hs, rfl⟩
          have := (segment_switchingPoints_bounds seg hl0 s hs).1
          simpa using this
        · rw [boundarySP_mem seg pos rest q h2]
          linarith
      · have := ih (pos + seg.length) (fun s hs => hlen s (by simp [hs])) q h1
        linarith

/-- The collected switching-point list is sorted by arc length. -/
theorem collectSwitchingPoints_sorted {n : ℕ} :
    ∀ (segs : List (PathSegment n)) (pos : ℝ), (∀ seg ∈ segs, 0 ≤ seg.length) →
      List.Pairwise (fun a b : ℝ × Bool => a.1 ≤ b.1) (collectSwitchingPoints segs pos) := by
  intro segs
  induction segs with
  | nil => intro pos _; simp [collectSwitchingPoints]
  | cons seg rest ih =>
      intro pos hlen
      have hl0 : 0 ≤ seg.length := hlen seg (by simp)
      have hrest : ∀ s ∈ rest, 0 ≤ PathSegment.length s :=
        fun s hs => hlen s (by simp [hs])
      rw [collectSwitchingPoints]
      rw [List.pairwise_append]
      refine ⟨?_, ?_, ?_⟩
      · rw [List.pairwise_append]
        refine ⟨?_, ?_, ?_⟩
        · -- intrinsic points of the head segment, sorted
          cases seg with
          | linear a b => simp [PathSegment.switchingPoints]
          | circular c u v r α =>
              simp only [PathSegment.switchingPoints, List.map_cons, List.map_nil,
                List.pairwise_cons]
              constructor
              · intro q hq
                simp only [List.mem_singleton] at hq
                subst hq
                have : (0 : ℝ) ≤ r * α := by simpa [PathSegment.length] using hl0
                simp
                linarith
              · simp
        · -- the boundary singleton
          cases rest with
          | nil => simp [boundarySP]
          | cons seg2 rest2 => simp [boundarySP]
        · -- intrinsic points come before the boundary
          intro a ha b hb
          rcases List.mem_map.mp ha with ⟨s, hs, rfl⟩
          rw [boundarySP_mem seg pos rest b hb]
          have := (segment_switchingPoints_bounds seg hl0 s hs).2
          simp
          linarith
      · exact ih (pos + seg.length) hrest
      · -- head-block points come before the tail points
        intro a ha b hb
        have hbtail := collectSwitchingPoints_lb rest (pos + seg.length) hrest b hb
        rcases List.mem_append.mp ha with h2 | h2
        · rcases List.mem_map.mp h2 with ⟨s, hs, rfl⟩
          have := (segment_switchingPoints_bounds seg hl0 s hs).2
          simp
          linarith
        · rw [boundarySP_mem seg pos rest a h2]
          linarith

theorem findNextSP_none (L : ℝ) :
    ∀ (l : List (ℝ × Bool)) (s : ℝ), (∀ q ∈ l, q.1 ≤ s) →
      findNextSP L l s = (L, false) := by
  intro l
  induction l with
  | nil => intro s _; rfl
  | cons q rest ih =>
      intro s h
      rw [findNextSP, if_neg (not_lt.mpr (h q (by simp)))]
      exact ih s fun q2 hq2 => h q2 (by simp [hq2])

theorem findNextSP_found (L : ℝ) :
    ∀ (l : List (ℝ × Bool)) (s : ℝ),
      List.Pairwise (fun a b : ℝ × Bool => a.1 ≤ b.1) l →
      ∀ q0 ∈ l, s < q0.1 →
        findNextSP L l s ∈ l ∧ s < (findNextSP L l s).1 ∧
          ∀ q ∈ l, s < q.1 → (findNextSP L l s).1 ≤ q.1 := by
  intro l
  induction l with
  | nil => intro s _ q0 h; simp at h
  | cons q rest ih =>
      intro s hsort q0 hq0 hs
      by_cases hlt : s < q.1
      · rw [findNextSP, if_pos hlt]
        refine ⟨by simp, hlt, ?_⟩
        intro q2 hq2 _
        rcases List.mem_cons.mp hq2 with rfl | h2
        · exact le_refl _
        · exact (List.pairwise_cons.mp hsort).1 q2 h2
      · rw [findNextSP, if_neg hlt]
        have hq0r : q0 ∈ rest := by
          rcases List.mem_cons.mp hq0 with rfl | h2
          · exact absurd hs hlt
          · exact h2
        have hrec := ih s (List.pairwise_cons.mp hsort).2 q0 hq0r hs
        refine ⟨by simp [hrec.1], hrec.2.1, ?_⟩
        intro q2 hq2 hsq2
        rcases List.mem_cons.mp hq2 with rfl | h2
        · exact absurd hsq2 hlt
        · exact hrec.2.2 q2 h2 hsq2

/-- C7: on a successfully created Path, `getNextSwitchingPoint(s)` returns the
smallest switching-point arc length strictly greater than s together with that
point's discontinuity flag; when no switching point exceeds s it returns the
total length L (with no discontinuity). -/
theorem path_getNextSwitchingPoint_correct {n : ℕ} (waypoints : List (Config n))
    (δ : ℝ) (p : Path n) (h : Path.create waypoints δ = some p) (s : ℝ) :
    ((∀ q ∈ p.switchingPoints, q.1 ≤ s) →
      p.getNextSwitchingPoint s = (p.length, false)) ∧
    (∀ q0 ∈ p.switchingPoints, s < q0.1 →
      p.getNextSwitchingPoint s ∈ p.switchingPoints ∧
      s < (p.getNextSwitchingPoint s).1 ∧
      ∀ q ∈ p.switchingPoints, s < q.1 → (p.getNextSwitchingPoint s).1 ≤ q.1) := by
  cases waypoints with
  | nil => simp [Path.create] at h
  | cons w0 rest =>
      rw [Path.create] at h
      by_cases hδ : δ ≤ 0
      · rw [if_pos hδ] at h
        exact absurd h (by simp)
      · rw [if_neg hδ] at h
        have hp := (Option.some.injEq _ _).mp h
        subst hp
        have hsorted := collectSwitchingPoints_sorted (buildSegments δ w0 rest) 0
          (buildSegments_length_nonneg (le_of_lt (not_le.mp hδ)) rest w0)
        constructor
        · intro hall
          exact findNextSP_none _ _ s hall
        · intro q0 hq0 hs0
          exact findNextSP_found _ _ s hsorted q0 hq0 hs0

/-- The two linear segments of the collinear three-waypoint scenario
(spec §8 scenario 3). -/
noncomputable def triSegs : List (PathSegment 1) :=
  [.linear (cfg1 0) (cfg1 1), .linear (cfg1 1) (cfg1 2)]

/-- The path built from the three collinear waypoints 0, 1, 2 in ℝ¹. -/
noncomputable def triPath : Path 1 :=
  { segments := assignPositions triSegs 0
    length := totalLength triSegs
    switchingPoints := collectSwitchingPoints triSegs 0 }

theorem triPath_create : Path.create [cfg1 0, cfg1 1, cfg1 2] 1 = some triPath := by
  have hone : dotp (cfg1 1 - cfg1 0) (cfg1 1 - cfg1 0) = 1 := by
    simp [dotp, cfg1, Fin.sum_univ_one]
  have htwo : dotp (cfg1 2 - cfg1 1) (cfg1 2 - cfg1 1) = 1 := by
    simp [dotp, cfg1, Fin.sum_univ_one]
    norm_num
  have hmix : dotp (cfg1 1 - cfg1 0) (cfg1 2 - cfg1 1) = 1 := by
    simp [dotp, cfg1, Fin.sum_univ_one]
    norm_num
  have hny : nrm (cfg1 1 - cfg1 0) = 1 := by
    rw [nrm, hone, Real.sqrt_one]
  have hnz : nrm (cfg1 2 - cfg1 1) = 1 := by
    rw [nrm, htwo, Real.sqrt_one]
  have hcol : collinearOrDegenerate (cfg1 1 - cfg1 0) (cfg1 2 - cfg1 1) := by
    right; right
    rw [unitv, unitv, hny, hnz, dotp_smul_left, dotp_smul_right, hmix]
    rw [eps]
    norm_num
  rw [Path.create, if_neg (by norm_num : ¬ (1 : ℝ) ≤ 0)]
  have hb : buildSegments (1 : ℝ) (cfg1 0) [cfg1 1, cfg1 2] = triSegs := by
    rw [buildSegments, if_pos hcol]
    rfl
  rw [hb]
  rfl

theorem path_getNextSwitchingPoint_correct_witness :
    ((∀ q ∈ triPath.switchingPoints, q.1 ≤ 0) →
      triPath.getNextSwitchingPoint 0 = (triPath.length, false)) ∧
    (∀ q0 ∈ triPath.switchingPoints, 0 < q0.1 →
      triPath.getNextSwitchingPoint 0 ∈ triPath.switchingPoints ∧
      0 < (triPath.getNextSwitchingPoint 0).1 ∧
      ∀ q ∈ triPath.switchingPoints, 0 < q.1 →
        (triPath.getNextSwitchingPoint 0).1 ≤ q.1) :=
  path_getNextSwitchingPoint_correct [cfg1 0, cfg1 1, cfg1 2] 1 triPath triPath_create 0

theorem nrm_zero_vec {n : ℕ} : nrm (0 : Config n) = 0 := by
  simp [nrm, dotp]

/-- The spec §3 invariants of a single segment: for a circular blend, the
frame (u, v) is orthonormal and radius and swept angle are nonnegative. -/
def PathSegment.WF {n : ℕ} : PathSegment n → Prop
  | .linear _ _ => True
  | .circular _ u v r α =>
      dotp u u = 1 ∧ dotp v v = 1 ∧ dotp u v = 0 ∧ 0 ≤ r ∧ 0 ≤ α

/-- The spec §3 Path invariants the geometric claims rest on: every segment
well formed, adjacent segments sharing the same endpoint configuration (C⁰),
and the aggregate length equal to the sum of the segment lengths. -/
def Path.WellFormed {n : ℕ} (p : Path n) : Prop :=
  (∀ seg ∈ p.rawSegments, seg.WF) ∧
  List.Chain' (fun s1 s2 : PathSegment n => s1.config s1.length = s2.config 0)
    p.rawSegments ∧
  p.length = totalLength p.rawSegments

theorem PathSegment.WF.length_nonneg {n : ℕ} {seg : PathSegment n} (h : seg.WF) :
    0 ≤ seg.length := by
  cases seg with
  | linear a b => exact nrm_nonneg _
  | circular c u v r α => exact mul_nonneg h.2.2.2.1 h.2.2.2.2

/-- (cos b − cos a)² + (sin b − sin a)² = 2 − 2 cos (b − a). -/
theorem cos_sin_diff_sq (a b : ℝ) :
    (Real.cos b - Real.cos a) ^ 2 + (Real.sin b - Real.sin a) ^ 2 =
      2 - 2 * Real.cos (b - a) := by
  have h := Real.cos_sub b a
  nlinarith [Real.sin_sq_add_cos_sq a, Real.sin_sq_add_cos_sq b]

/-- A single well-formed segment is 1-Lipschitz in arc length: the chord
between two parameters never exceeds the parameter difference. -/
theorem segment_lipschitz {n : ℕ} (seg : PathSegment n) (hwf : seg.WF)
    (s1 s2 : ℝ) (h12 : s1 ≤ s2) :
    nrm (seg.config s2 - seg.config s1) ≤ s2 - s1 := by
  cases seg with
  | linear a b =>
      have hdiff : PathSegment.config (.linear a b) s2 -
          PathSegment.config (.linear a b) s1 =
          ((s2 - s1) / nrm (b - a)) • (b - a) := by
        simp only [PathSegment.config]
        rw [sub_div, sub_smul]
        abel
      rw [hdiff, nrm_smul]
      rcases eq_or_lt_of_le (nrm_nonneg (b - a)) with h0 | h0
      · rw [← h0, div_zero, abs_zero, zero_mul]
        linarith
      · rw [abs_of_nonneg (div_nonneg (by linarith) (le_of_lt h0))]
        rw [div_mul_cancel₀ _ (ne_of_gt h0)]
  | circular c u v r α =>
      obtain ⟨huu, hvv, huv, hr, -⟩ := hwf
      rcases eq_or_lt_of_le hr with h0 | h0
      · -- degenerate zero-radius arc: constant configuration
        have : PathSegment.config (.circular c u v r α) s2 -
            PathSegment.config (.circular c u v r α) s1 = 0 := by
          rw [← h0]
          simp [PathSegment.config]
        rw [this, nrm_zero_vec]
        linarith
      · set a1 := s1 / r with ha1
        set b1 := s2 / r with hb1
        set A := Real.cos b1 - Real.cos a1 with hA
        set B := Real.sin b1 - Real.sin a1 with hB
        have hdiff : PathSegment.config (.circular c u v r α) s2 -
            PathSegment.config (.circular c u v r α) s1 =
            r • (A • u + B • v) := by
          simp only [PathSegment.config, hA, hB, ← ha1, ← hb1]
          module
        have hdot : dotp (A • u + B • v) (A • u + B • v) = A ^ 2 + B ^ 2 := by
          rw [dotp_add_add, dotp_smul_left, dotp_smul_right,
            dotp_smul_left, dotp_smul_right, dotp_smul_left, dotp_smul_right,
            huu, hvv, huv]
          ring
        have hAB : A ^ 2 + B ^ 2 = 4 * Real.sin ((b1 - a1) / 2) ^ 2 := by
          rw [hA, hB, cos_sin_diff_sq a1 b1]
          have hhalf := Real.sin_sq_eq_half_sub ((b1 - a1) / 2)
          rw [show 2 * ((b1 - a1) / 2) = b1 - a1 by ring] at hhalf
          linarith
        have hnX : nrm (A • u + B • v) = 2 * |Real.sin ((b1 - a1) / 2)| := by
          rw [nrm, hdot, hAB]
          rw [show (4 : ℝ) * Real.sin ((b1 - a1) / 2) ^ 2 =
            (2 * |Real.sin ((b1 - a1) / 2)|) ^ 2 by rw [mul_pow, sq_abs]; ring]
          rw [Real.sqrt_sq (by positivity)]
        rw [hdiff, nrm_smul, hnX, abs_of_nonneg hr]
        have hsin : |Real.sin ((b1 - a1) / 2)| ≤ (b1 - a1) / 2 := by
          refine (Real.abs_sin_le_abs).trans ?_
          rw [abs_of_nonneg]
          have : a1 ≤ b1 := by
            rw [ha1, hb1]
            exact (div_le_div_iff_of_pos_right h0).mpr h12
          linarith
        calc r * (2 * |Real.sin ((b1 - a1) / 2)|) ≤ r * (2 * ((b1 - a1) / 2)) := by
              have := mul_le_mul_of_nonneg_left (mul_le_mul_of_nonneg_left hsin
                (by norm_num : (0:ℝ) ≤ 2)) hr
              linarith
          _ = r * (b1 - a1) := by ring
          _ = s2 - s1 := by
              rw [hb1, ha1]
              field_simp

theorem clampArc_of_mem (L s : ℝ) (h0 : 0 ≤ s) (hL : s ≤ L) : clampArc L s = s := by
  rw [clampArc, min_eq_left hL, max_eq_right h0]

/-- On a chained segment list, querying at arc length 0 yields the first
segment's start configuration even through zero-length segments. -/
theorem walk_config_zero {n : ℕ} :
    ∀ (segs : List (PathSegment n)) (hne : segs ≠ [])
      (_ : ∀ seg ∈ segs, seg.WF)
      (_ : List.Chain' (fun a b : PathSegment n =>
        a.config a.length = b.config 0) segs),
      walkQuery PathSegment.config segs 0 = (segs.head hne).config 0 := by
  intro segs
  induction segs with
  | nil => intro h; exact absurd rfl h
  | cons seg rest ih =>
      intro hne hwf hchain
      cases rest with
      | nil => rfl
      | cons seg2 rest2 =>
          by_cases h0 : (0 : ℝ) < seg.length
          · simp only [walkQuery, if_pos h0]
            rfl
          · have hL : seg.length = 0 :=
              le_antisymm (not_lt.mp h0) (hwf seg (by simp)).length_nonneg
            simp only [walkQuery, if_neg h0]
            rw [hL, sub_zero]
            rw [ih (by simp) (fun s hs => hwf s (by simp [hs]))
              (List.chain'_cons.mp hchain).2]
            have hc := (List.chain'_cons.mp hchain).1
            rw [hL] at hc
            simpa using hc.symm

/-- The chained-walk Lipschitz bound: across any well-formed chained segment
list, the chord between two arc lengths is at most their difference. -/
theorem walk_lipschitz {n : ℕ} :
    ∀ (segs : List (PathSegment n))
      (_ : ∀ seg ∈ segs, seg.WF)
      (_ : List.Chain' (fun a b : PathSegment n =>
        a.config a.length = b.config 0) segs)
      (s1 s2 : ℝ), 0 ≤ s1 → s1 ≤ s2 → s2 ≤ totalLength segs →
      nrm (walkQuery PathSegment.config segs s2 -
        walkQuery PathSegment.config segs s1) ≤ s2 - s1 := by
  intro segs
  induction segs with
  | nil =>
      intro _ _ s1 s2 _ h12 _
      simp only [walkQuery, sub_zero, sub_self]
      rw [nrm_zero_vec]
      linarith
  | cons seg rest ih =>
      intro hwf hchain s1 s2 h0 h12 h2
      have hwf0 : seg.WF := hwf seg (by simp)
      cases rest with
      | nil =>
          simp only [walkQuery]
          exact segment_lipschitz seg hwf0 s1 s2 h12
      | cons seg2 rest2 =>
          have hwfr : ∀ s ∈ seg2 :: rest2, PathSegment.WF s :=
            fun s hs => hwf s (by simp [hs])
          have hchr := (List.chain'_cons.mp hchain).2
          by_cases hs2 : s2 < seg.length
          · have hs1 : s1 < seg.length := lt_of_le_of_lt h12 hs2
            simp only [walkQuery, if_pos hs2, if_pos hs1]
            exact segment_lipschitz seg hwf0 s1 s2 h12
          · by_cases hs1 : s1 < seg.length
            · -- the two arc lengths straddle the first boundary
              simp only [walkQuery, if_neg hs2, if_pos hs1]
              have hmid : walkQuery PathSegment.config (seg2 :: rest2) 0 =
                  seg.config seg.length := by
                rw [walk_config_zero (seg2 :: rest2) (by simp) hwfr hchr]
                exact ((List.chain'_cons.mp hchain).1).symm
              have h1 : nrm (walkQuery PathSegment.config (seg2 :: rest2)
                  (s2 - seg.length) - seg.config seg.length) ≤ s2 - seg.length := by
                rw [← hmid]
                have := ih hwfr hchr 0 (s2 - seg.length) (le_refl 0)
                  (by linarith [not_lt.mp hs2])
                  (by rw [totalLength_cons] at h2; linarith)
                simpa using this
              have h2seg : nrm (seg.config seg.length - seg.config s1) ≤
                  seg.length - s1 :=
                segment_lipschitz seg hwf0 s1 seg.length (le_of_lt hs1)
              calc nrm (walkQuery PathSegment.config (seg2 :: rest2)
                    (s2 - seg.length) - seg.config s1)
                  ≤ nrm (walkQuery PathSegment.config (seg2 :: rest2)
                      (s2 - seg.length) - seg.config seg.length) +
                    nrm (seg.config seg.length - seg.config s1) :=
                    nrm_sub_le_of_mid _ _ _
                _ ≤ (s2 - seg.length) + (seg.length - s1) := add_le_add h1 h2seg
                _ = s2 - s1 := by ring
            · -- both beyond the first segment
              simp only [walkQuery, if_neg hs2, if_neg hs1]
              have := ih hwfr hchr (s1 - seg.length) (s2 - seg.length)
                (by linarith [not_lt.mp hs1]) (by linarith)
                (by rw [totalLength_cons] at h2; linarith)
              calc nrm (walkQuery PathSegment.config (seg2 :: rest2)
                    (s2 - seg.length) - walkQuery PathSegment.config
                    (seg2 :: rest2) (s1 - seg.length))
                  ≤ (s2 - seg.length) - (s1 - seg.length) := this
                _ = s2 - s1 := by ring

/-- C8: on a path satisfying the spec §3 Path invariants (adjacent segments
share endpoints, circular frames orthonormal, aggregate length the sum of
segment lengths — the invariants `Path::create` establishes by construction),
the Euclidean distance between the configurations at two arc lengths
s₁ ≤ s₂ in [0, L] is at most s₂ − s₁: the chord never exceeds the arc. -/
theorem path_chord_le_arc {n : ℕ} (p : Path n) (hwf : p.WellFormed) (s1 s2 : ℝ)
    (h0 : 0 ≤ s1) (h12 : s1 ≤ s2) (h2 : s2 ≤ p.length) :
    nrm (p.getConfig s2 - p.getConfig s1) ≤ s2 - s1 := by
  obtain ⟨hseg, hchain, hlen⟩ := hwf
  rw [Path.getConfig, Path.getConfig,
    clampArc_of_mem _ _ (le_trans h0 h12) h2,
    clampArc_of_mem _ _ h0 (le_trans h12 h2)]
  exact walk_lipschitz p.rawSegments hseg hchain s1 s2 h0 h12 (hlen ▸ h2)

theorem linePath_wf : linePath.WellFormed := by
  refine ⟨?_, ?_, ?_⟩
  · intro seg h
    simp only [linePath, Path.rawSegments, List.map_cons, List.map_nil,
      List.mem_singleton] at h
    subst h
    trivial
  · simp [linePath, Path.rawSegments]
  · simp [linePath, Path.rawSegments]

theorem linePath_length : linePath.length = 1 := by
  have hone : dotp (cfg1 1 - cfg1 0) (cfg1 1 - cfg1 0) = 1 := by
    simp [dotp, cfg1, Fin.sum_univ_one]
  simp [linePath, totalLength, PathSegment.length, nrm, hone]

theorem path_chord_le_arc_witness :
    nrm (linePath.getConfig 1 - linePath.getConfig 0) ≤ 1 - 0 :=
  path_chord_le_arc linePath linePath_wf 0 1 (le_refl 0) (by norm_num)
    (by rw [linePath_length])

/-- A point of the phase plane (arc position s, path velocity ṡ) used during
generation, before times are assigned (spec §4.4). -/
structure PhasePoint where
  s : ℝ
  v : ℝ

/-- The joints with a nonzero tangent component at `s`. -/
noncomputable def velJoints {n : ℕ} (p : Path n) (s : ℝ) : Finset (Fin n) :=
  Finset.univ.filter (fun j => p.getTangent s j ≠ 0)

/-- The joints with a nonzero curvature component at `s`. -/
noncomputable def accJoints {n : ℕ} (p : Path n) (s : ℝ) : Finset (Fin n) :=
  Finset.univ.filter (fun j => p.getCurvature s j ≠ 0)

/-- Modelled from the spec: the velocity-limit curve V_vel(s) = minⱼ |v_maxⱼ /
f′ⱼ(s)| (§4.3), taken over the joints whose tangent component is nonzero;
`none` when no joint constrains the path velocity there. -/
noncomputable def velLimit {n : ℕ} (p : Path n) (vmax : Config n) (s : ℝ) : Option ℝ :=
  if h : (velJoints p s).Nonempty then
    some ((velJoints p s).inf' h (fun j => |vmax j / p.getTangent s j|))
  else none

/-- Modelled from the spec: the acceleration-limit curve V_acc(s) (§4.3), the
minimum over joints with nonzero curvature of √(a_maxⱼ / |f″ⱼ(s)|); `none` on
straight portions. (The Kunz–Stilman pairwise adjustment is referenced but not
spelled out by the spec and is not modelled.) -/
noncomputable def accLimit {n : ℕ} (p : Path n) (amax : Config n) (s : ℝ) : Option ℝ :=
  if h : (accJoints p s).Nonempty then
    some ((accJoints p s).inf' h (fun j => Real.sqrt (amax j / |p.getCurvature s j|)))
  else none

/-- Minimum of a value and an optional bound. -/
noncomputable def minOpt (x : ℝ) : Option ℝ → ℝ
  | none => x
  | some y => min x y

/-- Minimum of two optional bounds. -/
noncomputable def joinOpt : Option ℝ → Option ℝ → Option ℝ
  | none, o => o
  | some x, o => some (minOpt x o)

/-- Modelled from the spec: the maximum-velocity profile V_max(s) =
min(V_vel(s), V_acc(s)) (§4.3), as an optional bound. -/
noncomputable def vMaxProfile {n : ℕ} (p : Path n) (vmax amax : Config n) (s : ℝ) :
    Option ℝ :=
  joinOpt (velLimit p vmax s) (accLimit p amax s)

/-- Modelled from the spec: the largest path acceleration feasible at (s, ṡ)
(§4.3–§4.4): the per-joint constraint |f′ⱼ·s̈ + f″ⱼ·ṡ²| ≤ a_maxⱼ gives the
upper bound a_maxⱼ/|f′ⱼ| − f″ⱼ·ṡ²/f′ⱼ for every joint with nonzero tangent;
`none` when no joint constrains s̈. -/
noncomputable def aMaxAt {n : ℕ} (p : Path n) (amax : Config n) (s v : ℝ) : Option ℝ :=
  if h : (velJoints p s).Nonempty then
    some ((velJoints p s).inf' h (fun j =>
      amax j / |p.getTangent s j| - p.getCurvature s j * v ^ 2 / p.getTangent s j))
  else none

/-- Modelled from the spec: the smallest feasible path acceleration at (s, ṡ)
(§4.4 "a_min"), symmetric to `aMaxAt`. -/
noncomputable def aMinAt {n : ℕ} (p : Path n) (amax : Config n) (s v : ℝ) : Option ℝ :=
  if h : (velJoints p s).Nonempty then
    some ((velJoints p s).sup' h (fun j =>
      -(amax j / |p.getTangent s j|) - p.getCurvature s j * v ^ 2 / p.getTangent s j))
  else none

/-- Modelled from the spec: finite-difference slope of an optional curve
(the header's `get...MaxPathVelocityDeriv` helpers; §4.6 tolerances). -/
noncomputable def optSlope (f : ℝ → Option ℝ) (x : ℝ) : Option ℝ :=
  match f (x - eps), f (x + eps) with
  | some a, some b => some ((b - a) / (2 * eps))
  | _, _ => none

/-- Modelled from the spec: the signed slope difference of §4.4 — the minimum
path-acceleration phase slope minus the slope of the limit curve `f` — when
every ingredient is defined. -/
noncomputable def slopeDiff {n : ℕ} (p : Path n) (amax : Config n)
    (f : ℝ → Option ℝ) (x : ℝ) : Option ℝ :=
  match f x with
  | none => none
  | some w =>
      match aMinAt p amax x w, optSlope f x with
      | some a, some d => some (a / w - d)
      | _, _ => none

/-- Modelled from the spec: zero-crossing test of the signed slope difference
around `x` for the acceleration-limit curve (§4.4 "Acceleration switching
points"). -/
noncomputable def accTangencyCondition {n : ℕ} (p : Path n) (amax : Config n)
    (x : ℝ) : Prop :=
  match slopeDiff p amax (accLimit p amax) (x - eps),
      slopeDiff p amax (accLimit p amax) (x + eps) with
  | some g1, some g2 => (g1 ≤ 0 ∧ 0 ≤ g2) ∨ (g2 ≤ 0 ∧ 0 ≤ g1)
  | _, _ => False

/-- Modelled from the spec: the arming test of the velocity switching-point
scan (§4.4 "Velocity switching points"): the minimum-acceleration phase slope
at the velocity-limit curve reaches the curve's own slope. -/
noncomputable def velSwitchCondition {n : ℕ} (p : Path n) (vmax amax : Config n)
    (x : ℝ) : Prop :=
  match velLimit p vmax x with
  | none => False
  | some w =>
      match aMinAt p amax x w, optSlope (velLimit p vmax) x with
      | some a, some d => a / w ≥ d
      | _, _ => False

/-- Modelled from the spec: the velocity a trajectory switching point is
entered with — the limit-curve profile probed on both sides of the candidate
(a discontinuity may drop V_max instantly, §4.4) and at the point itself. -/
noncomputable def switchVel {n : ℕ} (p : Path n) (vmax amax : Config n) (s : ℝ) :
    Option ℝ :=
  joinOpt (vMaxProfile p vmax amax (s - eps))
    (joinOpt (vMaxProfile p vmax amax s) (vMaxProfile p vmax amax (s + eps)))

/-- Modelled from the spec: candidate trajectory switching points taken from
the path's collected switching-point list beyond `s` (§4.4: curvature
discontinuities, and acceleration switching points probed at segment
boundaries). Every discontinuity with a defined limit velocity is accepted;
a continuous boundary is accepted on the §4.4 zero-crossing test. -/
noncomputable def pathSwitchCandidates {n : ℕ} (p : Path n) (vmax amax : Config n) :
    List (ℝ × Bool) → ℝ → Option PhasePoint
  | [], _ => none
  | q :: rest, s =>
      if q.1 ≤ s then pathSwitchCandidates p vmax amax rest s
      else if q.2 = true ∨ accTangencyCondition p amax q.1 then
        match switchVel p vmax amax q.1 with
        | some w => some ⟨q.1, w⟩
        | none => pathSwitchCandidates p vmax amax rest s
      else pathSwitchCandidates p vmax amax rest s

/-- Modelled from the spec: the velocity switching-point scan (§4.4), on a
fixed grid of 8 nodes between the current position and the end of the path
(the spec leaves the scan resolution and refinement tolerance open — §4.6 and
the design note on bisection — so the model documents this fixed grid as its
chosen resolution, with no further bisection refinement). -/
noncomputable def velScan {n : ℕ} (p : Path n) (vmax amax : Config n) :
    ℕ → ℝ → ℝ → Option PhasePoint
  | 0, _, _ => none
  | k + 1, x, h =>
      let x1 := x + h
      if velSwitchCondition p vmax amax x1 then
        match velLimit p vmax x1 with
        | some w => some ⟨x1, w⟩
        | none => velScan p vmax amax k x1 h
      else velScan p vmax amax k x1 h

/-- The earlier (by arc length) of two optional candidates. -/
noncomputable def earliest : Option PhasePoint → Option PhasePoint → Option PhasePoint
  | none, o => o
  | some a, none => some a
  | some a, some b => if a.s ≤ b.s then some a else some b

/-- Modelled from the spec: "Find the next switching point ahead of the
current s" (§4.4 main loop step a), combining the candidates on the path's
switching-point list with the velocity-scan candidate. -/
noncomputable def nextSwitch {n : ℕ} (p : Path n) (vmax amax : Config n) (s : ℝ) :
    Option PhasePoint :=
  earliest (pathSwitchCandidates p vmax amax p.switchingPoints s)
    (velScan p vmax amax 8 s ((p.length - s) / 8))

/-- Modelled from the spec: forward integration with a_max (§4.4: "While ṡ <
V_max(s), advance using explicit Euler with step time_step: Δs = ṡ·dt, Δṡ =
a_max·dt", capping a step that would exceed V_max at the limit curve and
continuing along it, until the target arc length is reached or overshot).
The accumulator holds the new steps newest-first; an undefined acceleration, a
non-positive updated velocity (the profile cannot advance: §7 InfeasiblePath)
or fuel exhaustion fails, carrying the failure point as a diagnostic trace. -/
noncomputable def integrateForward {n : ℕ} (p : Path n) (vmax amax : Config n)
    (dt : ℝ) : ℕ → ℝ → ℝ → ℝ → List PhasePoint →
    Except (List PhasePoint) (List PhasePoint)
  | 0, _, s, v, _ => .error [⟨s, v⟩]
  | fuel + 1, sTarget, s, v, accF =>
      match aMaxAt p amax s v with
      | none => .error [⟨s, v⟩]
      | some a =>
          let v1 := v + a * dt
          if v1 ≤ 0 then .error [⟨s, v⟩]
          else
            let s1 := s + v1 * dt
            let v2 := minOpt v1 (vMaxProfile p vmax amax s1)
            if v2 ≤ 0 then .error [⟨s1, v2⟩]
            else if sTarget ≤ s1 then .ok (⟨s1, v2⟩ :: accF)
            else integrateForward p vmax amax dt fuel sTarget s1 v2 (⟨s1, v2⟩ :: accF)

/-- The last profile point at or before arc length `s` (for an ascending
profile list). -/
noncomputable def lastLE : List PhasePoint → ℝ → Option PhasePoint
  | [], _ => none
  | q :: rest, s => if q.s ≤ s then some ((lastLE rest s).getD q) else none

/-- The profile points strictly before arc length `s` (the prefix kept by a
splice). -/
noncomputable def takeBelow : List PhasePoint → ℝ → List PhasePoint
  | [], _ => []
  | q :: rest, s => if q.s < s then q :: takeBelow rest s else []

/-- Modelled from the spec: backward integration at a_min from a switching
point (or from (L, 0), §4.4 steps c and 3) down to a junction with the
forward profile, then the splice: the forward steps past the junction are
discarded and the backward-reversed steps appended. The trace is kept
ascending by prepending each visited point. A junction is declared at the
first backward point whose velocity reaches the (stepwise) forward profile;
the junction keeps the forward velocity there, capped by the limit curve.
Failure (spec §4.4 "Failure", §7 InfeasiblePath): walking past the start of
the forward profile, an undefined acceleration, a non-positive velocity, or
fuel exhaustion; the partial backward trace is carried in the error. -/
noncomputable def integrateBackward {n : ℕ} (p : Path n) (vmax amax : Config n)
    (dt : ℝ) : ℕ → List PhasePoint → ℝ → ℝ → List PhasePoint →
    Except (List PhasePoint) (List PhasePoint)
  | 0, _, s, v, accB => .error (⟨s, v⟩ :: accB)
  | fuel + 1, fwd, s, v, accB =>
      match lastLE fwd s with
      | none => .error (⟨s, v⟩ :: accB)
      | some q =>
          if q.v ≤ v then
            .ok (takeBelow fwd s ++ ⟨s, minOpt q.v (vMaxProfile p vmax amax s)⟩ :: accB)
          else
            match aMinAt p amax s v with
            | none => .error (⟨s, v⟩ :: accB)
            | some a =>
                let v1 := v - a * dt
                if v1 ≤ 0 then .error (⟨s, v⟩ :: accB)
                else
                  let s1 := s - v1 * dt
                  let v2 := minOpt v1 (vMaxProfile p vmax amax s1)
                  if v2 ≤ 0 then .error (⟨s, v⟩ :: accB)
                  else integrateBackward p vmax amax dt fuel fwd s1 v2 (⟨s, v⟩ :: accB)

/-- Modelled from the spec: the §4.4 main loop. Repeat: find the next
switching point ahead, forward-integrate to it, backward-integrate from it and
splice; once no switching point remains ahead, forward-integrate to L and
close with the final backward integration from (L, 0). Fuel bounds the number
of iterations (the spec's loop is driven by real-valued progress, which a
total model cannot mirror); exhausting it is treated as generation failure. -/
noncomputable def mainLoop {n : ℕ} (p : Path n) (vmax amax : Config n) (dt : ℝ)
    (ffuel : ℕ) : ℕ → List PhasePoint → Except (List PhasePoint) (List PhasePoint)
  | 0, steps => .error [(steps.getLast?).getD ⟨0, 0⟩]
  | fuel + 1, steps =>
      let cur := (steps.getLast?).getD ⟨0, 0⟩
      match nextSwitch p vmax amax cur.s with
      | some sw =>
          match integrateForward p vmax amax dt ffuel sw.s cur.s cur.v [] with
          | .error e => .error e
          | .ok newRev =>
              match integrateBackward p vmax amax dt ffuel (steps ++ newRev.reverse)
                  sw.s (minOpt sw.v (vMaxProfile p vmax amax sw.s)) [] with
              | .error e => .error e
              | .ok spliced => mainLoop p vmax amax dt ffuel fuel spliced
      | none =>
          match integrateForward p vmax amax dt ffuel p.length cur.s cur.v [] with
          | .error e => .error e
          | .ok newRev =>
              match integrateBackward p vmax amax dt ffuel (steps ++ newRev.reverse)
                  p.length 0 [] with
              | .error e => .error e
              | .ok spliced => .ok spliced

/-- The first profile point whose predecessor gives a vanishing average
velocity (which would make the §4.4 step-4 time increment non-finite). -/
noncomputable def firstBadPair : List PhasePoint → Option PhasePoint
  | a :: b :: rest => if a.v + b.v ≤ 0 then some b else firstBadPair (b :: rest)
  | _ => none

/-- Modelled from the spec: profile generation (§4.4), starting from (s = 0,
ṡ = 0) and validating that every time increment of step 4 will be finite
(spec §7 kind 4, NumericOverrun: a non-finite value during generation is
treated as InfeasiblePath — the model, over ℝ, surfaces the division by a
vanishing average velocity as this failure). -/
noncomputable def generate {n : ℕ} (p : Path n) (vmax amax : Config n) (dt : ℝ)
    (fuel : ℕ) : Except (List PhasePoint) (List PhasePoint) :=
  match mainLoop p vmax amax dt fuel fuel [⟨0, 0⟩] with
  | .error e => .error e
  | .ok prof =>
      match firstBadPair prof with
      | some q => .error [q]
      | none => .ok prof

/-- One step of the final trajectory (header `TrajectoryStep`, lines 147–158):
path position, path velocity and time. -/
structure TrajectoryStep where
  pathPos : ℝ
  pathVel : ℝ
  time : ℝ

/-- Modelled from the spec: §4.4 step 4 — times by trapezoidal integration,
dt = Δs / ṡ_avg between adjacent steps. -/
noncomputable def assignTimes : ℝ → PhasePoint → List PhasePoint → List TrajectoryStep
  | _, _, [] => []
  | t0, prev, q :: rest =>
      let t1 := t0 + (q.s - prev.s) / ((prev.v + q.v) / 2)
      ⟨q.s, q.v, t1⟩ :: assignTimes t1 q rest

/-- Times over the whole profile; t starts at 0 (§4.4 step 4). -/
noncomputable def withTimes : List PhasePoint → List TrajectoryStep
  | [] => []
  | q :: rest => ⟨q.s, q.v, 0⟩ :: assignTimes 0 q rest

/-- The parameterized trajectory (header `Trajectory`, lines 124–190): the
copied path, the limits, the time step, the validity flag, the timed steps
and `end_trajectory`, non-empty only if the generation failed. -/
structure Trajectory (n : ℕ) where
  path : Path n
  maxVelocity : Config n
  maxAcceleration : Config n
  timeStep : ℝ
  valid : Bool
  steps : List TrajectoryStep
  endTrajectory : List PhasePoint

/-- Modelled from the spec: the instance the `Trajectory::create` factory
builds internally — on failure it is marked invalid and keeps the partial
backward trace in `end_trajectory` (§4.4 "Failure", §3 invariants, header
line 184). -/
noncomputable def Trajectory.mk0 {n : ℕ} (p : Path n) (vmax amax : Config n)
    (dt : ℝ) (fuel : ℕ) : Trajectory n :=
  match generate p vmax amax dt fuel with
  | .error tr => ⟨p, vmax, amax, dt, false, [], tr⟩
  | .ok prof => ⟨p, vmax, amax, dt, true, withTimes prof, []⟩

/-- Modelled from the spec: `Trajectory::create` (header lines 127–130):
returns the instance when generation succeeded, absence otherwise. -/
noncomputable def Trajectory.create {n : ℕ} (p : Path n) (vmax amax : Config n)
    (dt : ℝ) (fuel : ℕ) : Option (Trajectory n) :=
  if (Trajectory.mk0 p vmax amax dt fuel).valid then some (Trajectory.mk0 p vmax amax dt fuel)
  else none

end TOTG
